import Mathlib

/-!
Verification development for the autoposting bot.

Shallow embedding of the core components of the source tree:
`utils.normalize_text`, `prices_manager.PricesManager`,
`bot.get_flavor_emoji`, the `post_` branch of `bot.callback_handler`,
`bot.update_posts`, `bot.safe_call` and `image_utils.ImageIndex.find_best_match`.

Text is modelled as `List Char` (and `String`, which in this Lean version is a
structure holding a `List Char`).  Python's regex character classes are
modelled at the ASCII level: `[A-Za-z]` and `\d` are exactly ASCII in the
source regexes concerned, `\w` and `\s` are modelled by their ASCII parts, and
`str.lower()` is modelled by `Char.toLower` (ASCII case mapping).
-/

/-! ## Character classes (ASCII model of the regex classes used in utils.py) -/

/-- `[A-Za-z]`, the class used by the letter/digit boundary regexes. -/
abbrev letterP (c : Char) : Prop :=
  (65 ≤ c.toNat ∧ c.toNat ≤ 90) ∨ (97 ≤ c.toNat ∧ c.toNat ≤ 122)

/-- `\d` (ASCII): decimal digits. -/
abbrev digitP (c : Char) : Prop := 48 ≤ c.toNat ∧ c.toNat ≤ 57

/-- `\w` (ASCII): letters, digits and underscore. -/
abbrev wordP (c : Char) : Prop := letterP c ∨ digitP c ∨ c = '_'

/-- `\s` (ASCII): space, tab, newline, vertical tab, form feed, carriage return. -/
abbrev spaceP (c : Char) : Prop :=
  c = ' ' ∨ c = '\t' ∨ c = '\n' ∨ c = '\x0b' ∨ c = '\x0c' ∨ c = '\r'

/-! ## normalize_text (utils.py, lines 13-36)

The pipeline, stage by stage in source order:
lower-case; `%` → " percent "; `/ \ _ .` → space; brackets → space;
a space inserted at every letter→digit and digit→letter boundary;
`[^\w\s]` → space; `\s+` collapsed to a single space; strip. -/

/-- `s.replace("%", " percent ")`. -/
def expandPercent : List Char → List Char
  | [] => []
  | c :: rest =>
    if c = '%' then
      ' ' :: 'p' :: 'e' :: 'r' :: 'c' :: 'e' :: 'n' :: 't' :: ' ' :: expandPercent rest
    else c :: expandPercent rest

/-- The four separator replaces: `/`, `\`, `_`, `.` each become a space. -/
def sepToSpace (c : Char) : Char :=
  if c = '/' ∨ c = '\\' ∨ c = '_' ∨ c = '.' then ' ' else c

/-- `re.sub(r"[\(\)\[\]\{\}]", " ", s)`: brackets become spaces. -/
def bracketToSpace (c : Char) : Char :=
  if c = '(' ∨ c = ')' ∨ c = '[' ∨ c = ']' ∨ c = '\x7b' ∨ c = '\x7d' then ' ' else c

/-- Zero-width insertion of a space at every position whose neighbours
satisfy `P`; models `re.sub` with a lookbehind/lookahead pattern. -/
def insertSpaceAt (P : Char → Char → Prop) [∀ a b : Char, Decidable (P a b)] :
    List Char → List Char
  | a :: b :: rest =>
    if P a b then a :: ' ' :: insertSpaceAt P (b :: rest)
    else a :: insertSpaceAt P (b :: rest)
  | l => l

/-- Letter→digit boundary pair, `(?<=[A-Za-z])(?=\d)`. -/
abbrev ldPair (a b : Char) : Prop := letterP a ∧ digitP b

/-- Digit→letter boundary pair, `(?<=\d)(?=[A-Za-z])`. -/
abbrev dlPair (a b : Char) : Prop := digitP a ∧ letterP b

/-- `re.sub(r"[^\w\s]", " ", s)`. -/
def nonwordToSpace (c : Char) : Char :=
  if ¬(wordP c ∨ spaceP c) then ' ' else c

/-- `re.sub(r"\s+", " ", s)`: every maximal whitespace run becomes one space. -/
def collapseWS : List Char → List Char
  | [] => []
  | [c] => if spaceP c then [' '] else [c]
  | a :: b :: rest =>
    if spaceP a ∧ spaceP b then collapseWS (b :: rest)
    else (if spaceP a then ' ' else a) :: collapseWS (b :: rest)

/-- Left part of `.strip()`. -/
def stripLeading (l : List Char) : List Char := l.dropWhile fun c => decide (spaceP c)

/-- Right part of `.strip()`. -/
def dropTrailWS : List Char → List Char
  | [] => []
  | c :: rest =>
    match dropTrailWS rest with
    | [] => if spaceP c then [] else [c]
    | r => c :: r

/-- `.strip()`. -/
def stripWS (l : List Char) : List Char := dropTrailWS (stripLeading l)

/-- `utils.normalize_text`, on character lists. -/
def normalize_text (s : List Char) : List Char :=
  if s = [] then []
  else
    stripWS (collapseWS (List.map nonwordToSpace
      (insertSpaceAt dlPair (insertSpaceAt ldPair
        (List.map bracketToSpace (List.map sepToSpace
          (expandPercent (List.map Char.toLower s))))))))

/-- `utils.normalize_text`, on strings. -/
def normalizeStr (s : String) : String := String.mk (normalize_text s.data)

theorem normalize_sample1 : normalizeStr "Elf Bar1500 (10%)" = "elf bar 1500 10 percent" := by
  decide

theorem normalize_sample2 : normalizeStr "  VOZOL_Star/2000  " = "vozol star 2000" := by
  decide

/-! ## Canonical form of normalizer output -/

/-- No two adjacent characters of the list satisfy `P`. -/
def noAdjP (P : Char → Char → Prop) : List Char → Prop
  | a :: b :: rest => ¬ P a b ∧ noAdjP P (b :: rest)
  | _ => True

/-- Adjacent pair of whitespace characters. -/
abbrev ssPair (a b : Char) : Prop := spaceP a ∧ spaceP b

/-- The list does not start with whitespace. -/
def noLeadWS : List Char → Prop
  | [] => True
  | c :: _ => ¬ spaceP c

/-- The list does not end with whitespace. -/
def noTrailWS : List Char → Prop
  | [] => True
  | [c] => ¬ spaceP c
  | _ :: b :: rest => noTrailWS (b :: rest)

/-- A character that can occur in normalizer output: a lower-case-stable word
character other than underscore, or a single space. -/
def outCharP (c : Char) : Prop := (wordP c ∧ Char.toLower c = c ∧ c ≠ '_') ∨ c = ' '

/-- Canonical form: exactly the shape `normalize_text` produces. -/
def canonForm (l : List Char) : Prop :=
  (∀ c ∈ l, outCharP c) ∧ noAdjP ssPair l ∧ noAdjP ldPair l ∧ noAdjP dlPair l ∧
    noLeadWS l ∧ noTrailWS l

/-! ## Character-level facts -/

theorem ofNat_shift : ∀ n, n < 91 → 65 ≤ n → (Char.ofNat (n + 32)).toNat = n + 32 := by decide

theorem toLower_toNat {c : Char} (h1 : 65 ≤ c.toNat) (h2 : c.toNat ≤ 90) :
    (Char.toLower c).toNat = c.toNat + 32 := by
  unfold Char.toLower
  rw [if_pos ⟨h1, h2⟩]
  exact ofNat_shift c.toNat (by omega) h1

theorem toLower_id {c : Char} (h : ¬(65 ≤ c.toNat ∧ c.toNat ≤ 90)) : Char.toLower c = c := by
  unfold Char.toLower
  exact if_neg h

theorem toLower_idem (c : Char) : Char.toLower (Char.toLower c) = Char.toLower c := by
  by_cases h : 65 ≤ c.toNat ∧ c.toNat ≤ 90
  · have h1 := toLower_toNat h.1 h.2
    apply toLower_id
    omega
  · rw [toLower_id h]
    exact toLower_id h

theorem word_not_space {c : Char} (hw : wordP c) : ¬ spaceP c := by
  intro hs
  rcases hs with rfl | rfl | rfl | rfl | rfl | rfl <;> exact absurd hw (by decide)

theorem ld_not_right (a : Char) : ¬ ldPair a ' ' := fun h => absurd h.2 (by decide)

theorem ld_not_left (b : Char) : ¬ ldPair ' ' b := fun h => absurd h.1 (by decide)

theorem dl_not_right (a : Char) : ¬ dlPair a ' ' := fun h => absurd h.2 (by decide)

theorem dl_not_left (b : Char) : ¬ dlPair ' ' b := fun h => absurd h.1 (by decide)

theorem noAdjP_tail {P : Char → Char → Prop} {a : Char} {l : List Char}
    (h : noAdjP P (a :: l)) : noAdjP P l := by
  cases l with
  | nil => trivial
  | cons b rest => exact h.2

/-! ## Pointwise maps: sepToSpace, bracketToSpace, nonwordToSpace -/

theorem sep_pointwise (c : Char) : sepToSpace c = c ∨ sepToSpace c = ' ' := by
  unfold sepToSpace
  split
  · exact Or.inr rfl
  · exact Or.inl rfl

theorem bracket_pointwise (c : Char) : bracketToSpace c = c ∨ bracketToSpace c = ' ' := by
  unfold bracketToSpace
  split
  · exact Or.inr rfl
  · exact Or.inl rfl

theorem nonword_pointwise (c : Char) : nonwordToSpace c = c ∨ nonwordToSpace c = ' ' := by
  unfold nonwordToSpace
  split
  · exact Or.inr rfl
  · exact Or.inl rfl

theorem sep_ne_underscore (c : Char) : sepToSpace c ≠ '_' := by
  unfold sepToSpace
  split
  · decide
  · rename_i h
    intro hc
    exact h (Or.inr (Or.inr (Or.inl hc)))

theorem nonword_out (c : Char) : wordP (nonwordToSpace c) ∨ spaceP (nonwordToSpace c) := by
  unfold nonwordToSpace
  split
  · exact Or.inr (Or.inl rfl)
  · rename_i h
    exact not_not.1 h

theorem map_id_of {f : Char → Char} {l : List Char} (h : ∀ c ∈ l, f c = c) :
    List.map f l = l := by
  induction l with
  | nil => rfl
  | cons a rest ih =>
    simp only [List.map_cons]
    rw [h a (List.mem_cons_self a rest), ih fun c hc => h c (List.mem_cons_of_mem a hc)]

theorem map_pred_preserve {f : Char → Char} (hf : ∀ c, f c = c ∨ f c = ' ')
    {Q : Char → Prop} (hQ : Q ' ') {l : List Char} (h : ∀ c ∈ l, Q c) :
    ∀ c ∈ List.map f l, Q c := by
  intro c hc
  rcases List.mem_map.1 hc with ⟨d, hd, rfl⟩
  rcases hf d with h1 | h1 <;> rw [h1]
  · exact h d hd
  · exact hQ

theorem map_noAdj_preserve {f : Char → Char} (hf : ∀ c, f c = c ∨ f c = ' ')
    {P : Char → Char → Prop} (hl : ∀ a, ¬ P a ' ') (hr : ∀ b, ¬ P ' ' b)
    {l : List Char} (h : noAdjP P l) : noAdjP P (List.map f l) := by
  induction l with
  | nil => trivial
  | cons a rest ih =>
    cases rest with
    | nil => trivial
    | cons b rest2 =>
      refine ⟨?_, ih h.2⟩
      rcases hf a with h1 | h1 <;> rw [h1]
      · rcases hf b with h2 | h2 <;> rw [h2]
        · exact h.1
        · exact hl a
      · exact hr (f b)

/-! ## expandPercent lemmas -/

theorem expand_pred_preserve {Q : Char → Prop}
    (hQ : Q ' ' ∧ Q 'p' ∧ Q 'e' ∧ Q 'r' ∧ Q 'c' ∧ Q 'n' ∧ Q 't')
    {l : List Char} (h : ∀ c ∈ l, Q c) : ∀ c ∈ expandPercent l, Q c := by
  induction l with
  | nil => intro c hc; simp [expandPercent] at hc
  | cons a rest ih =>
    intro c hc
    have hrest : ∀ c ∈ rest, Q c := fun d hd => h d (List.mem_cons_of_mem a hd)
    by_cases ha : a = '%'
    · rw [expandPercent, if_pos ha] at hc
      obtain ⟨h0, h1, h2, h3, h4, h5, h6⟩ := hQ
      simp only [List.mem_cons] at hc
      rcases hc with rfl | rfl | rfl | rfl | rfl | rfl | rfl | rfl | rfl | hc
      all_goals first
        | assumption
        | exact ih hrest c hc
    · rw [expandPercent, if_neg ha] at hc
      rcases List.mem_cons.1 hc with rfl | hc
      · exact h c (List.mem_cons_self c rest)
      · exact ih hrest c hc

theorem expand_no_percent {l : List Char} : ∀ c ∈ expandPercent l, c ≠ '%' := by
  induction l with
  | nil => intro c hc; simp [expandPercent] at hc
  | cons a rest ih =>
    intro c hc
    by_cases ha : a = '%'
    · rw [expandPercent, if_pos ha] at hc
      simp only [List.mem_cons] at hc
      rcases hc with rfl | rfl | rfl | rfl | rfl | rfl | rfl | rfl | rfl | hc
      all_goals first
        | decide
        | exact ih c hc
    · rw [expandPercent, if_neg ha] at hc
      rcases List.mem_cons.1 hc with rfl | hc
      · exact ha
      · exact ih c hc

theorem expand_id {l : List Char} (h : ∀ c ∈ l, c ≠ '%') : expandPercent l = l := by
  induction l with
  | nil => rfl
  | cons a rest ih =>
    rw [expandPercent, if_neg (h a (List.mem_cons_self a rest))]
    rw [ih fun c hc => h c (List.mem_cons_of_mem a hc)]

/-! ## insertSpaceAt lemmas -/

theorem insert_head (P : Char → Char → Prop) [∀ a b : Char, Decidable (P a b)]
    (a : Char) (l : List Char) : ∃ t, insertSpaceAt P (a :: l) = a :: t := by
  cases l with
  | nil => exact ⟨[], rfl⟩
  | cons b rest =>
    by_cases h : P a b
    · exact ⟨' ' :: insertSpaceAt P (b :: rest), by rw [insertSpaceAt, if_pos h]⟩
    · exact ⟨insertSpaceAt P (b :: rest), by rw [insertSpaceAt, if_neg h]⟩

theorem insert_pred_preserve (P : Char → Char → Prop) [∀ a b : Char, Decidable (P a b)]
    {Q : Char → Prop} (hQ : Q ' ') {l : List Char} (h : ∀ c ∈ l, Q c) :
    ∀ c ∈ insertSpaceAt P l, Q c := by
  induction l with
  | nil => intro c hc; simp [insertSpaceAt] at hc
  | cons a rest ih =>
    intro c hc
    cases rest with
    | nil =>
      have he : insertSpaceAt P [a] = [a] := rfl
      rw [he] at hc
      rcases List.mem_cons.1 hc with rfl | hc
      · exact h c (List.mem_cons_self c [])
      · simp at hc
    | cons b rest2 =>
      have hrest : ∀ d ∈ b :: rest2, Q d := fun d hd => h d (List.mem_cons_of_mem a hd)
      by_cases hp : P a b
      · rw [insertSpaceAt, if_pos hp] at hc
        simp only [List.mem_cons] at hc
        rcases hc with rfl | rfl | hc
        · exact h c (List.mem_cons_self c _)
        · exact hQ
        · exact ih hrest c hc
      · rw [insertSpaceAt, if_neg hp] at hc
        rcases List.mem_cons.1 hc with rfl | hc
        · exact h c (List.mem_cons_self c _)
        · exact ih hrest c hc

theorem insert_establish (P : Char → Char → Prop) [∀ a b : Char, Decidable (P a b)]
    (hl : ∀ a, ¬ P a ' ') (hr : ∀ b, ¬ P ' ' b) :
    ∀ l, noAdjP P (insertSpaceAt P l) := by
  intro l
  induction l with
  | nil => trivial
  | cons a rest ih =>
    cases rest with
    | nil => trivial
    | cons b rest2 =>
      obtain ⟨t, ht⟩ := insert_head P b rest2
      by_cases hp : P a b
      · rw [insertSpaceAt, if_pos hp, ht]
        exact ⟨hl a, hr b, ht ▸ ih⟩
      · rw [insertSpaceAt, if_neg hp, ht]
        exact ⟨hp, ht ▸ ih⟩

theorem insert_preserve (P Q : Char → Char → Prop) [∀ a b : Char, Decidable (P a b)]
    (hl : ∀ a, ¬ Q a ' ') (hr : ∀ b, ¬ Q ' ' b) :
    ∀ l, noAdjP Q l → noAdjP Q (insertSpaceAt P l) := by
  intro l
  induction l with
  | nil => intro; trivial
  | cons a rest ih =>
    intro h
    cases rest with
    | nil => trivial
    | cons b rest2 =>
      obtain ⟨t, ht⟩ := insert_head P b rest2
      by_cases hp : P a b
      · rw [insertSpaceAt, if_pos hp, ht]
        exact ⟨hl a, hr b, ht ▸ ih h.2⟩
      · rw [insertSpaceAt, if_neg hp, ht]
        exact ⟨h.1, ht ▸ ih h.2⟩

theorem insert_id (P : Char → Char → Prop) [∀ a b : Char, Decidable (P a b)]
    {l : List Char} (h : noAdjP P l) : insertSpaceAt P l = l := by
  induction l with
  | nil => rfl
  | cons a rest ih =>
    cases rest with
    | nil => rfl
    | cons b rest2 =>
      rw [insertSpaceAt, if_neg h.1, ih h.2]

/-! ## collapseWS lemmas -/

theorem collapse_head (z : Char) (zs : List Char) :
    ∃ t, collapseWS (z :: zs) = (if spaceP z then ' ' else z) :: t := by
  induction zs generalizing z with
  | nil =>
    refine ⟨[], ?_⟩
    by_cases h : spaceP z
    · rw [collapseWS, if_pos h, if_pos h]
    · rw [collapseWS, if_neg h, if_neg h]
  | cons b rest ih =>
    by_cases h : spaceP z ∧ spaceP b
    · obtain ⟨t, ht⟩ := ih b
      rw [collapseWS, if_pos h]
      rw [ht, if_pos h.2]
      exact ⟨t, by rw [if_pos h.1]⟩
    · exact ⟨collapseWS (b :: rest), by rw [collapseWS, if_neg h]⟩

theorem collapse_mem {l : List Char} : ∀ c ∈ collapseWS l, (c ∈ l ∧ ¬ spaceP c) ∨ c = ' ' := by
  induction l using collapseWS.induct with
  | case1 => intro c hc; simp [collapseWS] at hc
  | case2 d h =>
    intro c hc
    rw [collapseWS, if_pos h] at hc
    simp at hc
    exact Or.inr hc
  | case3 d h =>
    intro c hc
    rw [collapseWS, if_neg h] at hc
    simp at hc
    subst hc
    exact Or.inl ⟨List.mem_singleton_self c, h⟩
  | case4 a b rest h ih =>
    intro c hc
    rw [collapseWS, if_pos h] at hc
    rcases ih c hc with ⟨hm, hs⟩ | he
    · exact Or.inl ⟨List.mem_cons_of_mem a hm, hs⟩
    · exact Or.inr he
  | case5 a b rest h ih =>
    intro c hc
    rw [collapseWS, if_neg h] at hc
    rcases List.mem_cons.1 hc with rfl | hc
    · by_cases ha : spaceP a
      · rw [if_pos ha]; exact Or.inr rfl
      · rw [if_neg ha]; exact Or.inl ⟨List.mem_cons_self a _, ha⟩
    · rcases ih c hc with ⟨hm, hs⟩ | he
      · exact Or.inl ⟨List.mem_cons_of_mem a hm, hs⟩
      · exact Or.inr he

theorem collapse_noTwo {l : List Char} : noAdjP ssPair (collapseWS l) := by
  induction l using collapseWS.induct with
  | case1 => trivial
  | case2 d h => rw [collapseWS, if_pos h]; trivial
  | case3 d h => rw [collapseWS, if_neg h]; trivial
  | case4 a b rest h ih => rw [collapseWS, if_pos h]; exact ih
  | case5 a b rest h ih =>
    rw [collapseWS, if_neg h]
    obtain ⟨t, ht⟩ := collapse_head b rest
    rw [ht]
    refine ⟨?_, ht ▸ ih⟩
    intro ⟨h1, h2⟩
    by_cases ha : spaceP a
    · have hb : ¬ spaceP b := fun hb => h ⟨ha, hb⟩
      rw [if_pos ha] at *
      rw [if_neg hb] at h2
      exact hb h2
    · rw [if_neg ha] at h1
      exact ha h1

theorem collapse_noAdj_preserve {Q : Char → Char → Prop}
    (hql : ∀ a, ¬ Q a ' ') (hqr : ∀ b, ¬ Q ' ' b) {l : List Char}
    (h : noAdjP Q l) : noAdjP Q (collapseWS l) := by
  induction l using collapseWS.induct with
  | case1 => trivial
  | case2 d hd => rw [collapseWS, if_pos hd]; trivial
  | case3 d hd => rw [collapseWS, if_neg hd]; trivial
  | case4 a b rest hd ih => rw [collapseWS, if_pos hd]; exact ih h.2
  | case5 a b rest hd ih =>
    rw [collapseWS, if_neg hd]
    obtain ⟨t, ht⟩ := collapse_head b rest
    rw [ht]
    refine ⟨?_, ht ▸ ih h.2⟩
    by_cases ha : spaceP a
    · rw [if_pos ha]; exact hqr _
    · rw [if_neg ha]
      by_cases hb : spaceP b
      · rw [if_pos hb]; exact hql _
      · rw [if_neg hb]; exact h.1

theorem collapse_id {l : List Char} (h2 : noAdjP ssPair l)
    (h1 : ∀ c ∈ l, spaceP c → c = ' ') : collapseWS l = l := by
  induction l using collapseWS.induct with
  | case1 => rfl
  | case2 d hd =>
    rw [collapseWS, if_pos hd, h1 d (List.mem_singleton_self d) hd]
  | case3 d hd => rw [collapseWS, if_neg hd]
  | case4 a b rest hd ih => exact absurd hd h2.1
  | case5 a b rest hd ih =>
    rw [collapseWS, if_neg hd]
    have hrest : collapseWS (b :: rest) = b :: rest :=
      ih h2.2 fun c hc => h1 c (List.mem_cons_of_mem a hc)
    rw [hrest]
    by_cases ha : spaceP a
    · rw [if_pos ha, h1 a (List.mem_cons_self a _) ha]
    · rw [if_neg ha]

/-! ## strip lemmas -/

theorem stripLeading_noLead (l : List Char) : noLeadWS (stripLeading l) := by
  induction l with
  | nil => trivial
  | cons a rest ih =>
    by_cases h : spaceP a
    · rw [stripLeading, List.dropWhile_cons_of_pos (by simpa using h)]
      exact ih
    · rw [stripLeading, List.dropWhile_cons_of_neg (by simpa using h)]
      exact h

theorem stripLeading_mem {l : List Char} : ∀ c ∈ stripLeading l, c ∈ l := by
  intro c hc
  exact (List.dropWhile_sublist _).subset hc

theorem stripLeading_noAdj {Q : Char → Char → Prop} {l : List Char}
    (h : noAdjP Q l) : noAdjP Q (stripLeading l) := by
  induction l with
  | nil => trivial
  | cons a rest ih =>
    by_cases hs : spaceP a
    · rw [stripLeading, List.dropWhile_cons_of_pos (by simpa using hs)]
      exact ih (noAdjP_tail h)
    · rw [stripLeading, List.dropWhile_cons_of_neg (by simpa using hs)]
      exact h

theorem stripLeading_id {l : List Char} (h : noLeadWS l) : stripLeading l = l := by
  cases l with
  | nil => rfl
  | cons a rest =>
    have hs : ¬ spaceP a := h
    rw [stripLeading, List.dropWhile_cons_of_neg (by simpa using hs)]

theorem dropTrail_head {c : Char} {rest : List Char} :
    dropTrailWS (c :: rest) = [] ∨ ∃ t, dropTrailWS (c :: rest) = c :: t := by
  rw [dropTrailWS]
  cases hr : dropTrailWS rest with
  | nil =>
    by_cases h : spaceP c
    · rw [if_pos h]; exact Or.inl rfl
    · rw [if_neg h]; exact Or.inr ⟨[], rfl⟩
  | cons d ds => exact Or.inr ⟨d :: ds, rfl⟩

theorem dropTrail_mem {l : List Char} : ∀ c ∈ dropTrailWS l, c ∈ l := by
  induction l with
  | nil => intro c hc; simp [dropTrailWS] at hc
  | cons a rest ih =>
    intro c hc
    rw [dropTrailWS] at hc
    cases hr : dropTrailWS rest with
    | nil =>
      rw [hr] at hc
      by_cases h : spaceP a
      · rw [if_pos h] at hc; simp at hc
      · rw [if_neg h] at hc
        simp at hc
        subst hc
        exact List.mem_cons_self c rest
    | cons d ds =>
      rw [hr] at hc
      rcases List.mem_cons.1 hc with rfl | hc
      · exact List.mem_cons_self c rest
      · exact List.mem_cons_of_mem a (ih c (hr ▸ hc))

theorem dropTrail_noTrail (l : List Char) : noTrailWS (dropTrailWS l) := by
  induction l with
  | nil => trivial
  | cons a rest ih =>
    rw [dropTrailWS]
    cases hr : dropTrailWS rest with
    | nil =>
      show noTrailWS (if spaceP a then [] else [a])
      by_cases h : spaceP a
      · rw [if_pos h]; trivial
      · rw [if_neg h]; exact h
    | cons d ds =>
      show noTrailWS (d :: ds)
      rw [hr] at ih
      exact ih

theorem dropTrail_noLead {l : List Char} (h : noLeadWS l) : noLeadWS (dropTrailWS l) := by
  cases l with
  | nil => trivial
  | cons a rest =>
    rcases @dropTrail_head a rest with he | ⟨t, ht⟩
    · rw [he]; trivial
    · rw [ht]; exact h

theorem dropTrail_noAdj {Q : Char → Char → Prop} {l : List Char}
    (h : noAdjP Q l) : noAdjP Q (dropTrailWS l) := by
  induction l with
  | nil => trivial
  | cons a rest ih =>
    rw [dropTrailWS]
    cases hr : dropTrailWS rest with
    | nil =>
      by_cases hs : spaceP a
      · rw [if_pos hs]; trivial
      · rw [if_neg hs]; trivial
    | cons d ds =>
      have htail : noAdjP Q (d :: ds) := hr ▸ ih (noAdjP_tail h)
      cases rest with
      | nil => simp [dropTrailWS] at hr
      | cons b rest2 =>
        rcases @dropTrail_head b rest2 with he | ⟨t, ht⟩
        · rw [he] at hr; exact absurd hr (by simp)
        · rw [ht] at hr
          injection hr with hd hds
          subst hd
          exact ⟨h.1, htail⟩

theorem dropTrail_id {l : List Char} (h : noTrailWS l) : dropTrailWS l = l := by
  induction l with
  | nil => rfl
  | cons a rest ih =>
    cases rest with
    | nil =>
      rw [dropTrailWS]
      have : dropTrailWS [] = [] := rfl
      rw [this, if_neg h]
    | cons b rest2 =>
      rw [dropTrailWS, ih h]

/-! ## normalize_text produces canonical form -/

theorem canon_nil : canonForm [] :=
  ⟨fun c hc => absurd hc (List.not_mem_nil c), trivial, trivial, trivial, trivial, trivial⟩

theorem canon_normalize (s : List Char) : canonForm (normalize_text s) := by
  rw [normalize_text]
  by_cases hs : s = []
  · rw [if_pos hs]; exact canon_nil
  rw [if_neg hs]
  set l1 := List.map Char.toLower s with hl1
  set l2 := expandPercent l1 with hl2
  set l3 := List.map sepToSpace l2 with hl3
  set l4 := List.map bracketToSpace l3 with hl4
  set l5 := insertSpaceAt ldPair l4 with hl5
  set l6 := insertSpaceAt dlPair l5 with hl6
  set l7 := List.map nonwordToSpace l6 with hl7
  set l8 := collapseWS l7 with hl8
  -- lower-case stability chain
  have fix1 : ∀ c ∈ l1, Char.toLower c = c := by
    intro c hc
    rcases List.mem_map.1 hc with ⟨d, _, rfl⟩
    exact toLower_idem d
  have fix2 : ∀ c ∈ l2, Char.toLower c = c :=
    expand_pred_preserve (by refine ⟨?_, ?_, ?_, ?_, ?_, ?_, ?_⟩ <;> decide) fix1
  have fix3 : ∀ c ∈ l3, Char.toLower c = c :=
    map_pred_preserve sep_pointwise (by decide) fix2
  have fix4 : ∀ c ∈ l4, Char.toLower c = c :=
    map_pred_preserve bracket_pointwise (by decide) fix3
  have fix5 : ∀ c ∈ l5, Char.toLower c = c :=
    insert_pred_preserve ldPair (by decide) fix4
  have fix6 : ∀ c ∈ l6, Char.toLower c = c :=
    insert_pred_preserve dlPair (by decide) fix5
  have fix7 : ∀ c ∈ l7, Char.toLower c = c :=
    map_pred_preserve nonword_pointwise (by decide) fix6
  -- no underscore chain (from the separator replacement onward)
  have und3 : ∀ c ∈ l3, c ≠ '_' := by
    intro c hc
    rcases List.mem_map.1 hc with ⟨d, _, rfl⟩
    exact sep_ne_underscore d
  have und4 : ∀ c ∈ l4, c ≠ '_' :=
    map_pred_preserve bracket_pointwise (by decide) und3
  have und5 : ∀ c ∈ l5, c ≠ '_' :=
    insert_pred_preserve ldPair (by decide) und4
  have und6 : ∀ c ∈ l6, c ≠ '_' :=
    insert_pred_preserve dlPair (by decide) und5
  have und7 : ∀ c ∈ l7, c ≠ '_' :=
    map_pred_preserve nonword_pointwise (by decide) und6
  -- word-or-space at the nonword stage
  have ws7 : ∀ c ∈ l7, wordP c ∨ spaceP c := by
    intro c hc
    rcases List.mem_map.1 hc with ⟨d, _, rfl⟩
    exact nonword_out d
  -- letter/digit adjacency is gone after the two insertion passes
  have ld5 : noAdjP ldPair l5 := insert_establish ldPair ld_not_right ld_not_left l4
  have ld6 : noAdjP ldPair l6 := insert_preserve dlPair ldPair ld_not_right ld_not_left l5 ld5
  have dl6 : noAdjP dlPair l6 := insert_establish dlPair dl_not_right dl_not_left l5
  have ld7 : noAdjP ldPair l7 :=
    map_noAdj_preserve nonword_pointwise ld_not_right ld_not_left ld6
  have dl7 : noAdjP dlPair l7 :=
    map_noAdj_preserve nonword_pointwise dl_not_right dl_not_left dl6
  have ld8 : noAdjP ldPair l8 := collapse_noAdj_preserve ld_not_right ld_not_left ld7
  have dl8 : noAdjP dlPair l8 := collapse_noAdj_preserve dl_not_right dl_not_left dl7
  have ss8 : noAdjP ssPair l8 := collapse_noTwo
  -- characters of the collapsed list
  have out8 : ∀ c ∈ l8, outCharP c := by
    intro c hc
    rcases collapse_mem c hc with ⟨hm, hns⟩ | he
    · rcases ws7 c hm with hw | hsp
      · exact Or.inl ⟨hw, fix7 c hm, und7 c hm⟩
      · exact absurd hsp hns
    · exact Or.inr he
  -- push everything through strip
  rw [stripWS]
  set l9 := stripLeading l8 with hl9
  have out9 : ∀ c ∈ l9, outCharP c := fun c hc => out8 c (stripLeading_mem c hc)
  refine ⟨fun c hc => out9 c (dropTrail_mem c hc),
    dropTrail_noAdj (stripLeading_noAdj ss8),
    dropTrail_noAdj (stripLeading_noAdj ld8),
    dropTrail_noAdj (stripLeading_noAdj dl8),
    dropTrail_noLead (stripLeading_noLead l8),
    dropTrail_noTrail l9⟩

/-! ## normalize_text is the identity on canonical lists -/

theorem out_not_space {c : Char} (h : outCharP c) (hne : c ≠ ' ') : ¬ spaceP c := by
  rcases h with ⟨hw, _, _⟩ | rfl
  · exact word_not_space hw
  · exact absurd rfl hne

theorem out_space_blank {c : Char} (h : outCharP c) (hs : spaceP c) : c = ' ' := by
  rcases h with ⟨hw, _, _⟩ | rfl
  · exact absurd hs (word_not_space hw)
  · rfl

theorem normalize_of_canon {l : List Char} (h : canonForm l) : normalize_text l = l := by
  obtain ⟨hout, hss, hld, hdl, hlead, htrail⟩ := h
  rw [normalize_text]
  by_cases he : l = []
  · rw [if_pos he, he]
  rw [if_neg he]
  have e1 : List.map Char.toLower l = l := by
    apply map_id_of
    intro c hc
    rcases hout c hc with ⟨_, hf, _⟩ | rfl
    · exact hf
    · decide
  rw [e1]
  have e2 : expandPercent l = l := by
    apply expand_id
    intro c hc
    rcases hout c hc with ⟨hw, _, hu⟩ | rfl
    · intro hcp
      subst hcp
      exact absurd hw (by decide)
    · decide
  rw [e2]
  have e3 : List.map sepToSpace l = l := by
    apply map_id_of
    intro c hc
    rcases hout c hc with ⟨hw, _, hu⟩ | rfl
    · rw [sepToSpace]
      apply if_neg
      rintro (rfl | rfl | rfl | rfl)
      · exact absurd hw (by decide)
      · exact absurd hw (by decide)
      · exact hu rfl
      · exact absurd hw (by decide)
    · decide
  rw [e3]
  have e4 : List.map bracketToSpace l = l := by
    apply map_id_of
    intro c hc
    rcases hout c hc with ⟨hw, _, _⟩ | rfl
    · rw [bracketToSpace]
      apply if_neg
      rintro (rfl | rfl | rfl | rfl | rfl | rfl) <;> exact absurd hw (by decide)
    · decide
  rw [e4]
  rw [insert_id ldPair hld, insert_id dlPair hdl]
  have e7 : List.map nonwordToSpace l = l := by
    apply map_id_of
    intro c hc
    rcases hout c hc with ⟨hw, _, _⟩ | rfl
    · rw [nonwordToSpace]
      exact if_neg (not_not.2 (Or.inl hw))
    · decide
  rw [e7]
  rw [collapse_id hss fun c hc hs => out_space_blank (hout c hc) hs]
  rw [stripWS, stripLeading_id hlead, dropTrail_id htrail]

/-! ## C6: the normalizer is idempotent -/

theorem normalize_text_idem (s : List Char) :
    normalize_text (normalize_text s) = normalize_text s :=
  normalize_of_canon (canon_normalize s)

/-- C6: the normalizer is idempotent: for every input string `n`,
`normalize(normalize(n)) = normalize(n)`. -/
theorem normalizeStr_idem (n : String) : normalizeStr (normalizeStr n) = normalizeStr n := by
  rw [normalizeStr, normalizeStr]
  exact congrArg String.mk (normalize_text_idem n.data)

/-! ## PricesManager (prices_manager.py)

The store state is the pair of the `raw` dict (display-name keys, as
persisted) and the `normalized` dict (normalized keys, used by `get`).
Python dicts are modelled as ordered association lists. -/

/-- Dict lookup. -/
def lookupA {α : Type} : List (String × α) → String → Option α
  | [], _ => none
  | (k, v) :: rest, key => if key = k then some v else lookupA rest key

/-- Dict assignment `d[key] = v`: update in place, else append. -/
def setA {α : Type} : List (String × α) → String → α → List (String × α)
  | [], key, v => [(key, v)]
  | (k, w) :: rest, key, v =>
    if k = key then (k, v) :: rest else (k, w) :: setA rest key v

/-- `d.setdefault(key, v)`: insert only if the key is absent. -/
def setdefaultA {α : Type} (l : List (String × α)) (key : String) (v : α) :
    List (String × α) :=
  if (lookupA l key).isSome then l else l ++ [(key, v)]

/-- A stored price: an integer (after a successful `set`) or a raw string
(the empty string marks "unknown"). -/
inductive PriceVal where
  | int (n : Int)
  | str (s : String)
deriving DecidableEq

/-- The two dicts held by `PricesManager`. -/
structure PricesState where
  raw : List (String × PriceVal)
  normalized : List (String × PriceVal)
deriving DecidableEq

/-- Continuation of `groupedDigits` after a digit has just been read: more
digits, with single underscores allowed only between digits. -/
def groupedDigitsAux : List Char → Bool
  | [] => true
  | '_' :: c :: rest => decide (digitP c) && groupedDigitsAux rest
  | ['_'] => false
  | c :: rest => decide (digitP c) && groupedDigitsAux rest

/-- The digit part accepted by Python `int()`: a nonempty digit sequence in
which a single `_` may occur between two digits (`1_5` is legal, `_5`, `5_`
and `1__5` are not). -/
def groupedDigits : List Char → Bool
  | [] => false
  | c :: rest => decide (digitP c) && groupedDigitsAux rest

/-- Value of a digit sequence with underscore grouping. -/
def digitsVal (l : List Char) : Option Nat :=
  if groupedDigits l then
    some ((l.filter fun c => decide (c ≠ '_')).foldl
      (fun acc c => acc * 10 + (c.toNat - 48)) 0)
  else none

/-- Python `int(...)` on a string: strip whitespace, optional sign, decimal
digits with underscore grouping (ASCII model of the digit class). -/
def pyInt (s : String) : Option Int :=
  match stripWS s.data with
  | '-' :: rest => (digitsVal rest).map fun n => -(n : Int)
  | '+' :: rest => (digitsVal rest).map fun n => (n : Int)
  | l => (digitsVal l).map fun n => (n : Int)

namespace PricesManager

/-- `PricesManager.get`. -/
def get (st : PricesState) (model : String) : Option PriceVal :=
  lookupA st.normalized (normalizeStr model)

/-- `PricesManager.set`.  Returns the new state and the returned boolean. -/
def set (minPrice maxPrice : Int) (st : PricesState) (model : String)
    (price : String) : PricesState × Bool :=
  if price = "" then
    ({ raw := setdefaultA st.raw model (.str ""),
       normalized := setdefaultA st.normalized (normalizeStr model) (.str "") }, true)
  else
    match pyInt price with
    | none => (st, false)
    | some p =>
      if p < minPrice ∨ p > maxPrice then (st, false)
      else
        let nk := normalizeStr model
        let raw' :=
          match st.raw.find? fun kv => decide (normalizeStr kv.1 = nk) with
          | some kv => setA st.raw kv.1 (.int p)
          | none => setA st.raw model (.int p)
        ({ raw := raw', normalized := setA st.normalized nk (.int p) }, true)

/-- `PricesManager.add_missing_models`. -/
def add_missing_models (st : PricesState) (models : List String) : PricesState :=
  models.foldl
    (fun acc m =>
      if (lookupA acc.normalized (normalizeStr m)).isSome then acc
      else { raw := setdefaultA acc.raw m (.str ""),
             normalized := setA acc.normalized (normalizeStr m) (.str "") })
    st

end PricesManager

theorem lookupA_setA_self {α : Type} (l : List (String × α)) (k : String) (v : α) :
    lookupA (setA l k v) k = some v := by
  induction l with
  | nil => simp [setA, lookupA]
  | cons kv rest ih =>
    obtain ⟨k', w⟩ := kv
    by_cases h : k' = k
    · rw [setA, if_pos h, lookupA, if_pos h.symm]
    · rw [setA, if_neg h, lookupA, if_neg (fun hk => h hk.symm)]
      exact ih

theorem lookupA_setA_ne {α : Type} {l : List (String × α)} {k k' : String} (v : α)
    (h : k ≠ k') : lookupA (setA l k' v) k = lookupA l k := by
  induction l with
  | nil => simp [setA, lookupA, if_neg h]
  | cons kv rest ih =>
    obtain ⟨k0, w⟩ := kv
    by_cases h0 : k0 = k'
    · subst h0
      rw [setA, if_pos rfl, lookupA, lookupA, if_neg h, if_neg h]
    · rw [setA, if_neg h0, lookupA, lookupA]
      by_cases hk : k = k0
      · rw [if_pos hk, if_pos hk]
      · rw [if_neg hk, if_neg hk]
        exact ih

theorem setdefaultA_present {α : Type} {l : List (String × α)} {k : String} {v : α}
    (h : lookupA l k = some v) (w : α) : setdefaultA l k w = l := by
  rw [setdefaultA, if_pos (by rw [h]; rfl)]

/-! ## C4: price validation -/

/-- C4 counterexample: the empty price does not parse as an integer, yet
`set(model, "")` returns success and inserts an empty entry, so the claim
"every non-numeric price is rejected without mutating state" fails at
`price = ""` on an empty store. -/
theorem prices_set_empty_cex :
    (PricesManager.set 1 100000 ⟨[], []⟩ "mod" "").2 = true ∧
    PricesManager.get (PricesManager.set 1 100000 ⟨[], []⟩ "mod" "").1 "mod" =
      some (PriceVal.str "") ∧
    PricesManager.get ⟨[], []⟩ "mod" = none := by decide

/-- C4 (amended): a price parsing as an integer within the inclusive bounds is
accepted and `get` then returns it; a *non-empty* price that does not parse,
or parses out of bounds, is rejected with the state unchanged.  (The empty
price is always accepted and marks the model as "unknown".) -/
theorem prices_set_amended (minPrice maxPrice : Int) (st : PricesState)
    (model price : String) :
    (∀ p : Int, pyInt price = some p → minPrice ≤ p → p ≤ maxPrice →
      (PricesManager.set minPrice maxPrice st model price).2 = true ∧
      PricesManager.get (PricesManager.set minPrice maxPrice st model price).1 model =
        some (PriceVal.int p)) ∧
    (price ≠ "" → pyInt price = none →
      PricesManager.set minPrice maxPrice st model price = (st, false)) ∧
    (∀ p : Int, pyInt price = some p → (p < minPrice ∨ p > maxPrice) →
      PricesManager.set minPrice maxPrice st model price = (st, false)) := by
  refine ⟨?_, ?_, ?_⟩
  · intro p hp h1 h2
    have h0 : pyInt "" = none := by decide
    have hne : price ≠ "" := by
      intro he
      rw [he, h0] at hp
      exact Option.noConfusion hp
    rw [PricesManager.set, if_neg hne]
    simp only [hp]
    rw [if_neg (by omega)]
    refine ⟨rfl, ?_⟩
    rw [PricesManager.get]
    exact lookupA_setA_self _ _ _
  · intro hne hnone
    rw [PricesManager.set, if_neg hne]
    simp only [hnone]
  · intro p hp hbound
    have h0 : pyInt "" = none := by decide
    have hne : price ≠ "" := by
      intro he
      rw [he, h0] at hp
      exact Option.noConfusion hp
    rw [PricesManager.set, if_neg hne]
    simp only [hp]
    rw [if_pos hbound]

theorem prices_set_amended_witness :
    ((PricesManager.set 1 100000 ⟨[], []⟩ "mod" "42").2 = true ∧
      PricesManager.get (PricesManager.set 1 100000 ⟨[], []⟩ "mod" "42").1 "mod" =
        some (PriceVal.int 42)) ∧
    ((PricesManager.set 1 100000 ⟨[], []⟩ "mod" "1_5").2 = true ∧
      PricesManager.get (PricesManager.set 1 100000 ⟨[], []⟩ "mod" "1_5").1 "mod" =
        some (PriceVal.int 15)) ∧
    PricesManager.set 1 100000 ⟨[], []⟩ "mod" "abc" = (⟨[], []⟩, false) ∧
    PricesManager.set 1 100000 ⟨[], []⟩ "mod" "1__5" = (⟨[], []⟩, false) ∧
    PricesManager.set 1 100000 ⟨[], []⟩ "mod" "999999" = (⟨[], []⟩, false) :=
  ⟨(prices_set_amended 1 100000 ⟨[], []⟩ "mod" "42").1 42 (by decide) (by decide) (by decide),
   (prices_set_amended 1 100000 ⟨[], []⟩ "mod" "1_5").1 15 (by decide) (by decide) (by decide),
   (prices_set_amended 1 100000 ⟨[], []⟩ "mod" "abc").2.1 (by decide) (by decide),
   (prices_set_amended 1 100000 ⟨[], []⟩ "mod" "1__5").2.1 (by decide) (by decide),
   (prices_set_amended 1 100000 ⟨[], []⟩ "mod" "999999").2.2 999999 (by decide)
     (by decide)⟩

/-! ## C5: a non-empty price is never overwritten by an empty one -/

theorem add_missing_preserve {model : String} {v : PriceVal} :
    ∀ (models : List String) (st : PricesState),
      lookupA st.normalized (normalizeStr model) = some v →
      lookupA (PricesManager.add_missing_models st models).normalized
        (normalizeStr model) = some v := by
  intro models
  induction models with
  | nil => intro st h; exact h
  | cons m ms ih =>
    intro st h
    simp only [PricesManager.add_missing_models, List.foldl_cons] at ih ⊢
    apply ih
    by_cases hp : (lookupA st.normalized (normalizeStr m)).isSome
    · rw [if_pos hp]
      exact h
    · rw [if_neg hp]
      show lookupA (setA st.normalized (normalizeStr m) (.str ""))
        (normalizeStr model) = some v
      have hne : normalizeStr model ≠ normalizeStr m := by
        intro he
        rw [← he, h] at hp
        exact hp rfl
      rw [lookupA_setA_ne _ hne]
      exact h

/-- C5: for a key whose stored price is non-empty, `set` with an empty price
and `add_missing_models` both leave that key's price unchanged. -/
theorem prices_never_lose (minPrice maxPrice : Int) (st : PricesState)
    (model : String) (models : List String) (v : PriceVal)
    (hget : PricesManager.get st model = some v) (_hne : v ≠ PriceVal.str "") :
    PricesManager.get (PricesManager.set minPrice maxPrice st model "").1 model =
      some v ∧
    PricesManager.get (PricesManager.add_missing_models st models) model = some v := by
  rw [PricesManager.get] at hget
  constructor
  · rw [PricesManager.set, if_pos rfl, PricesManager.get]
    show lookupA (setdefaultA st.normalized (normalizeStr model) (.str ""))
      (normalizeStr model) = some v
    rw [setdefaultA_present hget]
    exact hget
  · rw [PricesManager.get]
    exact add_missing_preserve models st hget

theorem prices_never_lose_witness :
    PricesManager.get
      (PricesManager.set 1 100000 ⟨[("mod", .int 7)], [("mod", .int 7)]⟩ "mod" "").1
      "mod" = some (PriceVal.int 7) ∧
    PricesManager.get
      (PricesManager.add_missing_models ⟨[("mod", .int 7)], [("mod", .int 7)]⟩
        ["mod", "other thing"]) "mod" = some (PriceVal.int 7) :=
  prices_never_lose 1 100000 ⟨[("mod", .int 7)], [("mod", .int 7)]⟩ "mod"
    ["mod", "other thing"] (PriceVal.int 7) (by decide) (by decide)

/-! ## get_flavor_emoji (bot.py, lines 220-235) -/

/-- `flavor.lower().strip()` (ASCII model). -/
def pyLowerStrip (s : String) : String := String.mk (stripWS (s.data.map Char.toLower))

/-- Maximal non-whitespace runs of a character list. -/
def wordsAux : List Char → List Char → List (List Char)
  | cur, [] => if cur = [] then [] else [cur.reverse]
  | cur, c :: rest =>
    if spaceP c then
      if cur = [] then wordsAux [] rest else cur.reverse :: wordsAux [] rest
    else wordsAux (c :: cur) rest

/-- `re.split(r'\s+', k)` for a string `k` with no leading or trailing
whitespace (which holds after `.strip()`): the whitespace-separated tokens,
or `[""]` when `k` is empty. -/
def splitWSruns (s : String) : List String :=
  if s = "" then [""] else (wordsAux [] s.data).map String.mk

/-- `bot.get_flavor_emoji`, parametrised by the `FLAVOR_EMOJIS` table
(loaded from configuration in the source). -/
def get_flavor_emoji (FLAVOR_EMOJIS : List (String × String)) (flavor : String) :
    String :=
  if flavor = "" then ""
  else
    let k := pyLowerStrip flavor
    match lookupA FLAVOR_EMOJIS k with
    | some e => e
    | none =>
      let parts := splitWSruns k
      let emojis := parts.filterMap fun p => lookupA FLAVOR_EMOJIS p
      let emojis := emojis ++
        (if "sour" ∈ parts ∧ (lookupA FLAVOR_EMOJIS "sour").isSome then
          [(lookupA FLAVOR_EMOJIS "sour").getD ""]
        else [])
      let emojis := emojis ++
        (if "ice" ∈ parts ∨ "icy" ∈ parts then
          [(lookupA FLAVOR_EMOJIS "ice").getD "🧊"]
        else [])
      String.join emojis

/-- C7 counterexample: on the flavor `"icy"` with an *empty* emoji table every
lookup misses, yet the function returns the hardcoded ice cube, not `""`. -/
theorem flavor_emoji_cex :
    get_flavor_emoji [] "icy" = "🧊" ∧ get_flavor_emoji [] "icy" ≠ "" := by decide

/-- C7 (amended): the lookup is a pure function of the lowered/stripped flavor
text and returns `""` when the exact key and every token miss the table *and*
the token list contains neither `"ice"` nor `"icy"`; for ice/icy tokens a
hardcoded 🧊 default is appended even when the table has no entry.  (The code
performs no token-suffix lookups; those cannot hit either.) -/
theorem flavor_emoji_amended (table : List (String × String)) (flavor : String)
    (hk : lookupA table (pyLowerStrip flavor) = none)
    (hp : ∀ p ∈ splitWSruns (pyLowerStrip flavor), lookupA table p = none)
    (hice : "ice" ∉ splitWSruns (pyLowerStrip flavor))
    (hicy : "icy" ∉ splitWSruns (pyLowerStrip flavor)) :
    get_flavor_emoji table flavor = "" := by
  by_cases hf : flavor = ""
  · rw [get_flavor_emoji, if_pos hf]
  · rw [get_flavor_emoji, if_neg hf]
    simp only [hk]
    rw [List.filterMap_eq_nil_iff.2 hp]
    rw [if_neg ?_, if_neg ?_]
    · rfl
    · rintro (h | h)
      · exact hice h
      · exact hicy h
    · rintro ⟨hs, hsome⟩
      rw [hp "sour" hs] at hsome
      exact Option.noConfusion (Option.isSome_iff_exists.1 hsome).choose_spec

theorem flavor_emoji_amended_witness :
    get_flavor_emoji [("mango", "🥭")] "Weird Berry" = "" :=
  flavor_emoji_amended [("mango", "🥭")] "Weird Berry" (by decide) (by decide)
    (by decide) (by decide)

/-! ## The publish flow: `post_` branch of bot.callback_handler (bot.py 472-532)

State: the `temp_posts` map, the primary published records (`DB[k]`) and the
secondary published records (`DB[k + "_second"]`).  The two gateway calls
(forward to group 1, send to group 2) are modelled by their results: `some m`
is a delivered message id, `none` is a raised error. -/

/-- A draft record in `DB['temp_posts']`. -/
structure TempPost where
  message_id : Nat
  chat_id : Nat
  posted : Bool
deriving DecidableEq

/-- A per-channel published record (`DB[k]` / `DB[k + "_second"]`). -/
structure PubRec where
  message_id : Nat
  chat_id : Nat
deriving DecidableEq

/-- The parts of the bot DB that the publish flow reads and writes. -/
structure PubState where
  temp_posts : List (String × TempPost)
  pub1 : List (String × PubRec)
  pub2 : List (String × PubRec)
deriving DecidableEq

/-- How a `post_` callback ended. -/
inductive PostStatus where
  | notFound
  | alreadyPosted
  | g1Error
  | g2Error
  | success
deriving DecidableEq

/-- Result of one `post_` callback: which channel deliveries were attempted,
and how the handler ended. -/
structure PostOutcome where
  attempted1 : Bool
  attempted2 : Bool
  status : PostStatus
deriving DecidableEq

/-- One `post_` callback for key `k`: guard on the draft and its `posted`
flag, forward to group 1 (recording `DB[k]` on success, returning on error),
then send to group 2 (recording `DB[k_second]` on success, returning on
error), and only then mark the draft `posted`. -/
def handle_post (g1id g2id : Nat) (fwdRes sendRes : Option Nat) (k : String)
    (st : PubState) : PubState × PostOutcome :=
  match lookupA st.temp_posts k with
  | none => (st, ⟨false, false, .notFound⟩)
  | some temp =>
    if temp.posted then (st, ⟨false, false, .alreadyPosted⟩)
    else
      match fwdRes with
      | none => (st, ⟨true, false, .g1Error⟩)
      | some m1 =>
        let st1 : PubState := { st with pub1 := setA st.pub1 k ⟨m1, g1id⟩ }
        match sendRes with
        | none => (st1, ⟨true, true, .g2Error⟩)
        | some m2 =>
          ({ st1 with
              pub2 := setA st1.pub2 k ⟨m2, g2id⟩,
              temp_posts := setA st1.temp_posts k
                ⟨temp.message_id, temp.chat_id, true⟩ },
            ⟨true, true, .success⟩)

/-- The `posted` flag of key `k` (false when there is no draft). -/
def postedAt (k : String) (st : PubState) : Bool :=
  match lookupA st.temp_posts k with
  | none => false
  | some t => t.posted

/-- Run a sequence of `post_` callbacks for key `k`; each list entry is the
pair of gateway results for that invocation. -/
def runPublish (g1id g2id : Nat) (k : String) :
    List (Option Nat × Option Nat) → PubState → PubState
  | [], st => st
  | c :: calls, st => runPublish g1id g2id k calls (handle_post g1id g2id c.1 c.2 k st).1

/-- The `posted` values observed after each call of a run. -/
def postedTrace (g1id g2id : Nat) (k : String) :
    List (Option Nat × Option Nat) → PubState → List Bool
  | [], _ => []
  | c :: calls, st =>
    let st' := (handle_post g1id g2id c.1 c.2 k st).1
    postedAt k st' :: postedTrace g1id g2id k calls st'

/-- Number of `false → true` transitions in a Boolean trace starting from
value `b`. -/
def countFlips : Bool → List Bool → Nat
  | _, [] => 0
  | b, x :: xs => (if b = false ∧ x = true then 1 else 0) + countFlips x xs

/-! ## Step lemmas for handle_post -/

theorem handle_post_notFound {g1id g2id : Nat} {c1 c2 : Option Nat} {k : String}
    {st : PubState} (h : lookupA st.temp_posts k = none) :
    handle_post g1id g2id c1 c2 k st = (st, ⟨false, false, .notFound⟩) := by
  rw [handle_post, h]

theorem handle_post_already {g1id g2id : Nat} {c1 c2 : Option Nat} {k : String}
    {st : PubState} {t : TempPost} (h : lookupA st.temp_posts k = some t)
    (hp : t.posted = true) :
    handle_post g1id g2id c1 c2 k st = (st, ⟨false, false, .alreadyPosted⟩) := by
  rw [handle_post, h]
  simp only [hp, if_pos]

theorem handle_post_g1fail {g1id g2id : Nat} {c2 : Option Nat} {k : String}
    {st : PubState} {t : TempPost} (h : lookupA st.temp_posts k = some t)
    (hp : t.posted = false) :
    handle_post g1id g2id none c2 k st = (st, ⟨true, false, .g1Error⟩) := by
  rw [handle_post, h]
  simp only [hp]
  rfl

theorem handle_post_g2fail {g1id g2id m1 : Nat} {k : String}
    {st : PubState} {t : TempPost} (h : lookupA st.temp_posts k = some t)
    (hp : t.posted = false) :
    handle_post g1id g2id (some m1) none k st =
      ({ st with pub1 := setA st.pub1 k ⟨m1, g1id⟩ }, ⟨true, true, .g2Error⟩) := by
  rw [handle_post, h]
  simp only [hp]
  rfl

theorem handle_post_success {g1id g2id m1 m2 : Nat} {k : String}
    {st : PubState} {t : TempPost} (h : lookupA st.temp_posts k = some t)
    (hp : t.posted = false) :
    handle_post g1id g2id (some m1) (some m2) k st =
      ({ st with
          pub1 := setA st.pub1 k ⟨m1, g1id⟩,
          pub2 := setA st.pub2 k ⟨m2, g2id⟩,
          temp_posts := setA st.temp_posts k ⟨t.message_id, t.chat_id, true⟩ },
        ⟨true, true, .success⟩) := by
  rw [handle_post, h]
  simp only [hp]
  rfl

theorem postedAt_mono {g1id g2id : Nat} {c1 c2 : Option Nat} {k : String}
    {st : PubState} (h : postedAt k st = true) :
    postedAt k (handle_post g1id g2id c1 c2 k st).1 = true := by
  rw [postedAt] at h
  cases hT : lookupA st.temp_posts k with
  | none => rw [hT] at h; exact absurd h (by decide)
  | some t =>
    rw [hT] at h
    rw [handle_post_already hT h]
    rw [postedAt, hT]
    exact h

theorem postedAt_flip_both {g1id g2id : Nat} {c1 c2 : Option Nat} {k : String}
    {st : PubState} (h0 : postedAt k st = false)
    (h1 : postedAt k (handle_post g1id g2id c1 c2 k st).1 = true) :
    c1.isSome = true ∧ c2.isSome = true := by
  cases hT : lookupA st.temp_posts k with
  | none =>
    rw [handle_post_notFound hT] at h1
    rw [h1] at h0
    exact absurd h0 (by decide)
  | some t =>
    have hp : t.posted = false := by rw [postedAt, hT] at h0; exact h0
    cases c1 with
    | none =>
      rw [handle_post_g1fail hT hp] at h1
      rw [h1] at h0
      exact absurd h0 (by decide)
    | some m1 =>
      cases c2 with
      | none =>
        rw [handle_post_g2fail hT hp] at h1
        rw [postedAt] at h1
        have h2 : lookupA ({ st with pub1 := setA st.pub1 k ⟨m1, g1id⟩ } :
            PubState).temp_posts k = some t := hT
        simp only [h2] at h1
        rw [hp] at h1
        exact absurd h1 (by decide)
      | some m2 => exact ⟨rfl, rfl⟩

theorem postedAt_fail_eq {g1id g2id : Nat} {c1 c2 : Option Nat} {k : String}
    {st : PubState} (h : c1 = none ∨ c2 = none) :
    postedAt k (handle_post g1id g2id c1 c2 k st).1 = postedAt k st := by
  cases hT : lookupA st.temp_posts k with
  | none => rw [handle_post_notFound hT]
  | some t =>
    cases hp : t.posted with
    | true => rw [handle_post_already hT hp]
    | false =>
      cases c1 with
      | none => rw [handle_post_g1fail hT hp]
      | some m1 =>
        cases c2 with
        | none =>
          rw [handle_post_g2fail hT hp]
          rw [postedAt, postedAt]
        | some m2 =>
          rcases h with h | h <;> exact Option.noConfusion h

theorem trace_after_true {g1id g2id : Nat} {k : String} :
    ∀ (calls : List (Option Nat × Option Nat)) (st : PubState),
      postedAt k st = true →
      countFlips true (postedTrace g1id g2id k calls st) = 0 := by
  intro calls
  induction calls with
  | nil => intro st _; rfl
  | cons c rest ih =>
    intro st h
    have h' := @postedAt_mono g1id g2id c.1 c.2 k st h
    rw [postedTrace]
    simp only [h', countFlips]
    simpa using ih _ h'

theorem countFlips_le_one {g1id g2id : Nat} {k : String} :
    ∀ (calls : List (Option Nat × Option Nat)) (st : PubState),
      countFlips (postedAt k st) (postedTrace g1id g2id k calls st) ≤ 1 := by
  intro calls
  induction calls with
  | nil => intro st; exact Nat.zero_le 1
  | cons c rest ih =>
    intro st
    rw [postedTrace]
    cases h0 : postedAt k st with
    | true =>
      have h' := @postedAt_mono g1id g2id c.1 c.2 k st h0
      simp only [h', countFlips]
      rw [trace_after_true rest _ h']
      simp
    | false =>
      cases h1 : postedAt k (handle_post g1id g2id c.1 c.2 k st).1 with
      | true =>
        simp only [h1, countFlips]
        rw [trace_after_true rest _ h1]
        simp
      | false =>
        simp only [h1, countFlips]
        have hrest := ih (handle_post g1id g2id c.1 c.2 k st).1
        rw [h1] at hrest
        simpa using hrest

/-! ## C1: publish retry is not idempotent on the primary channel -/

/-- C1 counterexample: first call forwards to group 1 (recording message 10)
and fails on group 2; the retry forwards to group 1 *again* and overwrites the
primary record with message 11 — contradicting "the second call does not
deliver to the primary channel again". -/
theorem publish_retry_cex :
    lookupA (handle_post 500 600 (some 10) none "m"
      ⟨[("m", ⟨1, 100, false⟩)], [], []⟩).1.pub1 "m" = some ⟨10, 500⟩ ∧
    (handle_post 500 600 (some 11) (some 12) "m"
      (handle_post 500 600 (some 10) none "m"
        ⟨[("m", ⟨1, 100, false⟩)], [], []⟩).1).2.attempted1 = true ∧
    lookupA (handle_post 500 600 (some 11) (some 12) "m"
      (handle_post 500 600 (some 10) none "m"
        ⟨[("m", ⟨1, 100, false⟩)], [], []⟩).1).1.pub1 "m" = some ⟨11, 500⟩ := by
  decide

/-- C1 (amended): a second `publish` on a draft still marked unposted
re-attempts the primary delivery even when a primary PublishedRecord already
exists, overwrites that record with the new message id on success, and then
attempts the secondary delivery. -/
theorem publish_retry_amended (g1id g2id m1 : Nat) (m2res : Option Nat)
    (k : String) (st : PubState) (t : TempPost) (r : PubRec)
    (ht : lookupA st.temp_posts k = some t) (hp : t.posted = false)
    (_hr : lookupA st.pub1 k = some r) :
    (handle_post g1id g2id (some m1) m2res k st).2.attempted1 = true ∧
    (handle_post g1id g2id (some m1) m2res k st).2.attempted2 = true ∧
    lookupA (handle_post g1id g2id (some m1) m2res k st).1.pub1 k =
      some ⟨m1, g1id⟩ := by
  cases m2res with
  | none =>
    rw [handle_post_g2fail ht hp]
    exact ⟨rfl, rfl, lookupA_setA_self _ _ _⟩
  | some m2 =>
    rw [handle_post_success ht hp]
    exact ⟨rfl, rfl, lookupA_setA_self _ _ _⟩

theorem publish_retry_amended_witness :
    (handle_post 500 600 (some 11) (some 12) "m"
      ⟨[("m", ⟨1, 100, false⟩)], [("m", ⟨10, 500⟩)], []⟩).2.attempted1 = true ∧
    (handle_post 500 600 (some 11) (some 12) "m"
      ⟨[("m", ⟨1, 100, false⟩)], [("m", ⟨10, 500⟩)], []⟩).2.attempted2 = true ∧
    lookupA (handle_post 500 600 (some 11) (some 12) "m"
      ⟨[("m", ⟨1, 100, false⟩)], [("m", ⟨10, 500⟩)], []⟩).1.pub1 "m" =
      some ⟨11, 500⟩ :=
  publish_retry_amended 500 600 11 (some 12) "m"
    ⟨[("m", ⟨1, 100, false⟩)], [("m", ⟨10, 500⟩)], []⟩ ⟨1, 100, false⟩ ⟨10, 500⟩
    (by decide) (by decide) (by decide)

/-! ## C2: the primary failure gates the secondary attempt -/

/-- C2 counterexample: on an existing unposted draft whose primary forward
fails, the secondary delivery is *not* attempted — contradicting "both
channel deliveries are attempted on every invocation". -/
theorem publish_gating_cex :
    (handle_post 500 600 none (some 12) "m"
      ⟨[("m", ⟨1, 100, false⟩)], [], []⟩).2.attempted1 = true ∧
    (handle_post 500 600 none (some 12) "m"
      ⟨[("m", ⟨1, 100, false⟩)], [], []⟩).2.attempted2 = false := by
  decide

/-- C2 (amended): on an existing unposted draft, the primary delivery is
always attempted, the secondary delivery is attempted exactly when the
primary succeeded, and `posted` becomes true exactly when both succeeded. -/
theorem publish_attempts_amended (g1id g2id : Nat) (c1 c2 : Option Nat)
    (k : String) (st : PubState) (t : TempPost)
    (ht : lookupA st.temp_posts k = some t) (hp : t.posted = false) :
    (handle_post g1id g2id c1 c2 k st).2.attempted1 = true ∧
    ((handle_post g1id g2id c1 c2 k st).2.attempted2 = true ↔ c1.isSome = true) ∧
    (postedAt k (handle_post g1id g2id c1 c2 k st).1 = true ↔
      (c1.isSome = true ∧ c2.isSome = true)) := by
  have h0 : postedAt k st = false := by rw [postedAt, ht]; exact hp
  cases c1 with
  | none =>
    rw [handle_post_g1fail ht hp]
    refine ⟨rfl, by simp, ?_⟩
    rw [h0]
    simp
  | some m1 =>
    cases c2 with
    | none =>
      rw [handle_post_g2fail ht hp]
      refine ⟨rfl, by simp, ?_⟩
      constructor
      · intro h1
        rw [postedAt] at h1
        have h2 : lookupA ({ st with pub1 := setA st.pub1 k ⟨m1, g1id⟩ } :
            PubState).temp_posts k = some t := ht
        simp only [h2] at h1
        rw [hp] at h1
        exact absurd h1 (by decide)
      · rintro ⟨-, h⟩
        exact absurd h (by decide)
    | some m2 =>
      rw [handle_post_success ht hp]
      refine ⟨rfl, by simp, ?_⟩
      constructor
      · intro
        exact ⟨rfl, rfl⟩
      · intro
        rw [postedAt]
        have h2 : lookupA ({ st with
            pub1 := setA st.pub1 k ⟨m1, g1id⟩,
            pub2 := setA st.pub2 k ⟨m2, g2id⟩,
            temp_posts := setA st.temp_posts k ⟨t.message_id, t.chat_id, true⟩ } :
              PubState).temp_posts k = some ⟨t.message_id, t.chat_id, true⟩ :=
          lookupA_setA_self _ _ _
        simp only [h2]

theorem publish_attempts_amended_witness :
    ((handle_post 500 600 (some 11) none "m"
        ⟨[("m", ⟨1, 100, false⟩)], [], []⟩).2.attempted1 = true ∧
      ((handle_post 500 600 (some 11) none "m"
          ⟨[("m", ⟨1, 100, false⟩)], [], []⟩).2.attempted2 = true ↔
        (some 11 : Option Nat).isSome = true) ∧
      (postedAt "m" (handle_post 500 600 (some 11) none "m"
          ⟨[("m", ⟨1, 100, false⟩)], [], []⟩).1 = true ↔
        ((some 11 : Option Nat).isSome = true ∧ (none : Option Nat).isSome = true))) :=
  publish_attempts_amended 500 600 (some 11) none "m"
    ⟨[("m", ⟨1, 100, false⟩)], [], []⟩ ⟨1, 100, false⟩ (by decide) (by decide)

/-! ## C3: the posted flag flips false→true at most once, only on a fully
successful publish -/

/-- C3: along any sequence of `publish` invocations for a key, the `posted`
flag transitions false→true at most once; whenever an invocation flips it,
both channel deliveries of that invocation succeeded; and an invocation in
which either delivery failed leaves `posted` unchanged. -/
theorem posted_once (g1id g2id : Nat) (k : String) (st : PubState)
    (calls : List (Option Nat × Option Nat)) :
    countFlips (postedAt k st) (postedTrace g1id g2id k calls st) ≤ 1 ∧
    (∀ (pre : List (Option Nat × Option Nat)) (c : Option Nat × Option Nat),
      postedAt k (runPublish g1id g2id k pre st) = false →
      postedAt k (handle_post g1id g2id c.1 c.2 k
        (runPublish g1id g2id k pre st)).1 = true →
      c.1.isSome = true ∧ c.2.isSome = true) ∧
    (∀ c : Option Nat × Option Nat, c.1 = none ∨ c.2 = none →
      postedAt k (handle_post g1id g2id c.1 c.2 k st).1 = postedAt k st) := by
  refine ⟨countFlips_le_one calls st, ?_, ?_⟩
  · intro pre c h0 h1
    exact postedAt_flip_both h0 h1
  · intro c h
    exact postedAt_fail_eq h

theorem posted_once_witness :
    (some 6 : Option Nat).isSome = true ∧ (some 7 : Option Nat).isSome = true :=
  (posted_once 500 600 "m" ⟨[("m", ⟨1, 100, false⟩)], [], []⟩
      [(some 5, none), (some 6, some 7)]).2.1 [(some 5, none)] (some 6, some 7)
    (by decide) (by decide)

/-! ## update_posts (bot.py, lines 659-692)

Resync walks the published records of the DB and edits each caption in
place.  The gateway's response to `edit_message_caption` is modelled per key:
success, a `BadRequest` carrying its message text, or another error.  The
source never writes to the DB in this loop; a `BadRequest` whose lowered text
contains "message is not modified" is skipped silently (`continue`), every
other failure is logged. -/

/-- Response of the gateway to an `edit_message_caption` call. -/
inductive EditResp where
  | ok
  | badRequest (msg : String)
  | otherErr
deriving DecidableEq

/-- A published record as stored in `DB[k]` / `DB[k + "_second"]`. -/
structure PubPost where
  message_id : Nat
  chat_id : Nat
  model : String
deriving DecidableEq

/-- `pat` occurs as a contiguous substring of `l`. -/
def startsWithL : List Char → List Char → Bool
  | [], _ => true
  | _ :: _, [] => false
  | p :: ps, c :: cs => p = c && startsWithL ps cs

/-- Substring test, `needle in haystack`. -/
def containsSub (pat : List Char) : List Char → Bool
  | [] => startsWithL pat []
  | l@(_ :: rest) => startsWithL pat l || containsSub pat rest

/-- `"message is not modified" in str(e).lower()`. -/
def isNotModifiedMsg (msg : String) : Bool :=
  containsSub "message is not modified".data (msg.data.map Char.toLower)

/-- Per-record outcome of the resync loop body. -/
inductive UpdOutcome where
  | counted
  | skippedNotModified
  | loggedError
deriving DecidableEq

/-- `bot.update_posts` over the list of published records, with `resp k` the
gateway response for key `k`.  Returns the records (never rewritten by the
source), the `updated` counter and the keys whose failure was logged. -/
def update_posts (resp : String → EditResp) :
    List (String × PubPost) → List (String × PubPost) × Nat × List String
  | [] => ([], 0, [])
  | (k, post) :: rest =>
    let r := update_posts resp rest
    match resp k with
    | .ok => ((k, post) :: r.1, r.2.1 + 1, r.2.2)
    | .badRequest msg =>
      if isNotModifiedMsg msg then ((k, post) :: r.1, r.2.1, r.2.2)
      else ((k, post) :: r.1, r.2.1, k :: r.2.2)
    | .otherErr => ((k, post) :: r.1, r.2.1, k :: r.2.2)

/-- C8: when the gateway reports the caption as not modified, resync leaves
every stored record (in particular its message reference) unchanged and does
not log the record as an error. -/
theorem update_posts_not_modified (resp : String → EditResp)
    (posts : List (String × PubPost)) (k : String) (msg : String)
    (hk : resp k = .badRequest msg) (hm : isNotModifiedMsg msg = true) :
    (update_posts resp posts).1 = posts ∧
    k ∉ (update_posts resp posts).2.2 := by
  induction posts with
  | nil => exact ⟨rfl, by simp [update_posts]⟩
  | cons kp rest ih =>
    obtain ⟨k', post⟩ := kp
    cases hr : resp k' with
    | ok =>
      simp only [update_posts, hr]
      exact ⟨by rw [ih.1], ih.2⟩
    | badRequest m =>
      simp only [update_posts, hr]
      by_cases hnm : isNotModifiedMsg m = true
      · rw [if_pos hnm]
        exact ⟨by rw [ih.1], ih.2⟩
      · rw [if_neg hnm]
        refine ⟨by rw [ih.1], ?_⟩
        intro hmem
        rcases List.mem_cons.1 hmem with rfl | hmem
        · rw [hk] at hr
          injection hr with he
          rw [← he] at hnm
          exact hnm hm
        · exact ih.2 hmem
    | otherErr =>
      simp only [update_posts, hr]
      refine ⟨by rw [ih.1], ?_⟩
      intro hmem
      rcases List.mem_cons.1 hmem with rfl | hmem
      · rw [hk] at hr
        exact EditResp.noConfusion hr
      · exact ih.2 hmem

theorem update_posts_not_modified_witness :
    (update_posts
      (fun k => if k = "m" then .badRequest "Bad Request: MESSAGE IS NOT MODIFIED" else .ok)
      [("m", ⟨10, 500, "Model M"⟩), ("x", ⟨11, 500, "Model X"⟩)]).1 =
      [("m", ⟨10, 500, "Model M"⟩), ("x", ⟨11, 500, "Model X"⟩)] ∧
    "m" ∉ (update_posts
      (fun k => if k = "m" then .badRequest "Bad Request: MESSAGE IS NOT MODIFIED" else .ok)
      [("m", ⟨10, 500, "Model M"⟩), ("x", ⟨11, 500, "Model X"⟩)]).2.2 :=
  update_posts_not_modified _ _ "m" "Bad Request: MESSAGE IS NOT MODIFIED"
    (by decide) (by decide)

/-! ## safe_call (bot.py, lines 124-147)

The while-loop is modelled with a fuel parameter; `resp i` gives the outcome
of the i-th invocation of `fn`.  A `RetryAfter e` sleeps `e + 1` seconds and
loops *without touching the attempt counter*; a network-class error increments
`attempt`, gives up once `attempt > retries`, and otherwise sleeps
`0.8 * 2 ^ (attempt - 1)` seconds; any other gateway error propagates at
once.  Sleep durations are recorded in tenths of a second. -/

/-- Outcome of one underlying gateway call inside `safe_call`. -/
inductive GwResp where
  | ok
  | retryAfter (wait : Nat)
  | netErr
  | tgErr
deriving DecidableEq

/-- How `safe_call` itself ends. -/
inductive SCOutcome where
  | success
  | netFail
  | tgFail
deriving DecidableEq

/-- `bot.safe_call` with retry budget `retries`; returns `none` when the loop
has not finished within `fuel` iterations, together with the recorded sleeps
(in tenths of a second). -/
def safe_call (retries : Nat) : Nat → (Nat → GwResp) → Nat → Nat → List Nat →
    Option SCOutcome × List Nat
  | 0, _, _, _, sleeps => (none, sleeps)
  | fuel + 1, resp, i, attempt, sleeps =>
    match resp i with
    | .ok => (some .success, sleeps)
    | .retryAfter w =>
      safe_call retries fuel resp (i + 1) attempt (sleeps ++ [10 * (w + 1)])
    | .netErr =>
      if attempt + 1 > retries then (some .netFail, sleeps)
      else safe_call retries fuel resp (i + 1) (attempt + 1)
        (sleeps ++ [8 * 2 ^ attempt])
    | .tgErr => (some .tgFail, sleeps)

theorem safe_call_retryAfter_forever :
    ∀ fuel i a sleeps,
      (safe_call 3 fuel (fun _ => GwResp.retryAfter 5) i a sleeps).1 = none := by
  intro fuel
  induction fuel with
  | zero => intro i a sleeps; rfl
  | succ n ih =>
    intro i a sleeps
    simp only [safe_call]
    exact ih (i + 1) a _

/-- C9 counterexample: against a gateway that always answers with a
rate-limit, `safe_call` (budget 3) never completes, however many loop
iterations it is given — the rate-limit branch never counts an attempt, so
the claimed global retry bound does not exist. -/
theorem safe_call_cex :
    ¬ ∃ fuel, (safe_call 3 fuel (fun _ => GwResp.retryAfter 5) 0 0 []).1 ≠ none := by
  rintro ⟨fuel, h⟩
  exact h (safe_call_retryAfter_forever fuel 0 0 [])

theorem safe_call_no_rl_terminates (retries : Nat) (resp : Nat → GwResp)
    (hnr : ∀ i w, resp i ≠ GwResp.retryAfter w) :
    ∀ fuel i a sleeps, retries + 1 ≤ fuel + a → 1 ≤ fuel →
      (safe_call retries fuel resp i a sleeps).1.isSome = true := by
  intro fuel
  induction fuel with
  | zero => intro i a sleeps _ h1; omega
  | succ n ih =>
    intro i a sleeps hfa _
    cases hresp : resp i with
    | ok => simp only [safe_call, hresp]; rfl
    | retryAfter w => exact absurd hresp (hnr i w)
    | netErr =>
      simp only [safe_call, hresp]
      by_cases hb : a + 1 > retries
      · rw [if_pos hb]
        rfl
      · rw [if_neg hb]
        exact ih (i + 1) (a + 1) _ (by omega) (by omega)
    | tgErr => simp only [safe_call, hresp]; rfl

/-- C9 (amended): a rate-limit response sleeps the gateway-specified duration
plus a one-second margin and then retries, but those retries are *not*
counted against any budget (see the counterexample: a permanently
rate-limited call never returns).  When no rate-limit responses occur, the
call definitely terminates within `retries + 1` iterations: success, an
immediately propagated non-transient error, or a network failure raised after
the retry budget is exhausted. -/
theorem safe_call_amended (retries w : Nat) (resp resp2 : Nat → GwResp)
    (hnr : ∀ i w', resp i ≠ GwResp.retryAfter w')
    (h0 : resp2 0 = GwResp.retryAfter w) (h1 : resp2 1 = GwResp.ok) :
    (safe_call retries (retries + 1) resp 0 0 []).1.isSome = true ∧
    safe_call retries 2 resp2 0 0 [] = (some SCOutcome.success, [10 * (w + 1)]) := by
  constructor
  · exact safe_call_no_rl_terminates retries resp hnr (retries + 1) 0 0 [] (by omega)
      (by omega)
  · simp only [safe_call, h0, h1, List.nil_append]

theorem safe_call_amended_witness :
    (safe_call 3 4 (fun _ => GwResp.netErr) 0 0 []).1.isSome = true ∧
    safe_call 3 2 (fun i => if i = 0 then GwResp.retryAfter 5 else GwResp.ok) 0 0 [] =
      (some SCOutcome.success, [60]) :=
  safe_call_amended 3 5 (fun _ => GwResp.netErr)
    (fun i => if i = 0 then GwResp.retryAfter 5 else GwResp.ok)
    (fun i w' => by simp) (by decide) (by decide)

/-! ## ImageIndex.find_best_match (image_utils.py, lines 45-77)

The index maps normalized filename stems to paths; `keys_list` is its key
list.  The optional rapidfuzz scorer is a parameter (`hasFuzz` models
`HAS_RAPIDFUZZ`), and `extractOne` models `process.extractOne`: the
best-scoring key, first wins on ties. -/

/-- The image index: `key -> path` plus the cached key list. -/
structure ImageIndex where
  index : List (String × String)
  keys_list : List String

/-- `process.extractOne(q, keys, scorer)`: none on an empty key list, else
the highest-scoring key (first on ties). -/
def extractOne (scorer : String → String → Nat) (q : String) :
    List String → Option (String × Nat)
  | [] => none
  | k :: rest =>
    some (rest.foldl
      (fun best cand =>
        if scorer q cand > best.2 then (cand, scorer q cand) else best)
      (k, scorer q k))

/-- `nm.split()`: whitespace tokens. -/
def tokensOf (s : String) : List String := (wordsAux [] s.data).map String.mk

/-- `ImageIndex.find_best_match`. -/
def find_best_match (hasFuzz : Bool) (scorer : String → String → Nat)
    (idx : ImageIndex) (model_name : String) :
    Option String × Option String × Nat :=
  let nm := normalizeStr model_name
  if nm = "" then (none, none, 0)
  else if (lookupA idx.index nm).isSome then (some nm, lookupA idx.index nm, 100)
  else
    let variants := [nm, nm.replace " " "", nm.replace "percent" "%"]
    match variants.find? (fun v => (lookupA idx.index v).isSome) with
    | some v => (some v, lookupA idx.index v, 95)
    | none =>
      let fuzzy :=
        if hasFuzz ∧ idx.keys_list ≠ [] then extractOne scorer nm idx.keys_list
        else none
      match fuzzy with
      | some kv => (some kv.1, lookupA idx.index kv.1, kv.2)
      | none =>
        let model_words := tokensOf nm
        let best := idx.keys_list.foldl
          (fun best k =>
            let overlap := (model_words.dedup.filter
              (fun w => decide (w ∈ tokensOf k))).length
            if overlap > best.2 then (some k, overlap) else best)
          ((none : Option String), 0)
        match best.1 with
        | some bk => (some bk, lookupA idx.index bk, best.2)
        | none => (none, none, 0)

/-- C10: when the query's normalization is empty, `find_best_match` returns
`(none, none, 0)` for every index and every scorer — it never consults the
index on such input. -/
theorem find_best_match_empty (hasFuzz : Bool) (scorer : String → String → Nat)
    (idx : ImageIndex) (q : String) (h : normalizeStr q = "") :
    find_best_match hasFuzz scorer idx q = (none, none, 0) := by
  simp only [find_best_match, h, if_true]

theorem find_best_match_empty_witness :
    find_best_match true (fun _ _ => 77)
      ⟨[("elf bar", "images/elfbar.jpg")], ["elf bar"]⟩ "!!!" = (none, none, 0) ∧
    find_best_match false (fun _ _ => 0) ⟨[], []⟩ "" = (none, none, 0) :=
  ⟨find_best_match_empty true (fun _ _ => 77)
      ⟨[("elf bar", "images/elfbar.jpg")], ["elf bar"]⟩ "!!!" (by decide),
    find_best_match_empty false (fun _ _ => 0) ⟨[], []⟩ "" (by decide)⟩
